import Mathlib

/-!
Verification development for the array-computation interface specification
(`array_api_stubs/_draft`): shape broadcasting, dtype promotion, tensor
contraction, value-based uniqueness, ordering, and `arange`.

The repository's source files are signature stubs whose normative content
lives in docstrings; every operation below is therefore modelled from the
specification prose and the docstrings, as faithfully as a shallow
embedding allows.  Machine floats are modelled by exact values extended
with NaN and signed zero; numeric element arithmetic uses exact integers
or rationals.
-/

namespace ArraySpec

/-- Modelled from the spec: the error taxonomy of §7 (the stub sources name
only a generic `Exception`; the spec assigns these five kinds). -/
inductive ArrErr where
  | BroadcastError
  | ShapeMismatchError
  | InvalidAxisError
  | DuplicateAxisError
  | IncompatibleDTypeError
deriving DecidableEq, Repr

/-! ## DTypePromotionTable (§4.2) -/

/-- Modelled from the spec: the four dtype kinds of the promotion lattice
`boolean < integer < real-float < complex-float` (§3, §4.2); the stub
sources carry no dtype implementation. -/
inductive DKind where
  | bool
  | int
  | real
  | cplx
deriving DecidableEq, Repr

/-- Position of a kind in the promotion lattice. -/
def DKind.level : DKind → Nat
  | .bool => 0
  | .int => 1
  | .real => 2
  | .cplx => 3

/-- The higher of two kinds in the lattice. -/
def DKind.maxK (a b : DKind) : DKind :=
  if a.level ≤ b.level then b else a

/-- Modelled from the spec: a dtype is a tag carrying a kind and a bit
width (§3). -/
structure DType where
  kind : DKind
  width : Nat
deriving DecidableEq, Repr

/-- Modelled from the spec: `resolve(dtype...) -> dtype` of the
DTypePromotionTable (§4.2): the result kind is the higher kind in the
lattice and the result width is the wider width, which realizes "within a
kind, promotion picks the wider width" and keeps the result width at least
the maximum width among inputs of the promoted kind. -/
def resolve (a b : DType) : DType :=
  ⟨DKind.maxK a.kind b.kind, max a.width b.width⟩

/-! ## ShapeResolver (§4.1) -/

/-- Combination of one aligned dimension pair during broadcasting: equal
dimensions agree, a dimension of size 1 stretches, anything else is a
`BroadcastError`. -/
def combineDim (a b : Nat) : Except ArrErr Nat :=
  if a = b then .ok a
  else if a = 1 then .ok b
  else if b = 1 then .ok a
  else .error .BroadcastError

/-- Broadcasting on reversed shapes (trailing dimension first); a missing
leading dimension of either operand is treated as size 1 by taking the
remainder of the longer shape unchanged. -/
def broadcastRev : List Nat → List Nat → Except ArrErr (List Nat)
  | [], t => .ok t
  | s, [] => .ok s
  | a :: s, b :: t =>
      match combineDim a b, broadcastRev s t with
      | .ok d, .ok rest => .ok (d :: rest)
      | .error e, _ => .error e
      | _, .error e => .error e

/-- Modelled from the spec: `broadcast(shapeA, shapeB) -> shape` of the
ShapeResolver (§4.1) — shapes are compared from the trailing dimension
backward, missing leading dimensions count as size 1, and an incompatible
pair fails with `BroadcastError`. -/
def broadcast (s t : List Nat) : Except ArrErr (List Nat) :=
  match broadcastRev s.reverse t.reverse with
  | .ok r => .ok r.reverse
  | .error e => .error e

theorem combineDim_comm (a b : Nat) : combineDim a b = combineDim b a := by
  unfold combineDim
  by_cases hab : a = b
  · subst hab; simp
  · have hba : ¬ b = a := fun h => hab h.symm
    rw [if_neg hab, if_neg hba]
    by_cases ha : a = 1
    · subst ha
      have : ¬ b = 1 := fun h => hab h.symm
      rw [if_pos rfl, if_neg this, if_pos rfl]
    · rw [if_neg ha]
      by_cases hb : b = 1
      · subst hb; rw [if_pos rfl, if_pos rfl]
      · rw [if_neg hb, if_neg hb, if_neg ha]

theorem broadcastRev_comm : ∀ s t : List Nat, broadcastRev s t = broadcastRev t s
  | [], [] => rfl
  | [], _ :: _ => rfl
  | _ :: _, [] => rfl
  | a :: s, b :: t => by
      unfold broadcastRev
      rw [combineDim_comm, broadcastRev_comm s t]

/-- Length of a successful reversed broadcast is the max of the operand
lengths. -/
theorem broadcastRev_length : ∀ (s t u : List Nat),
    broadcastRev s t = .ok u → u.length = max s.length t.length
  | [], t, u => by
      intro h
      simp only [broadcastRev] at h
      cases h
      simp
  | a :: s, [], u => by
      intro h
      simp only [broadcastRev] at h
      cases h
      simp
  | a :: s, b :: t, u => by
      intro h
      unfold broadcastRev at h
      cases hc : combineDim a b with
      | error e => rw [hc] at h; exact absurd h (by simp)
      | ok d =>
          rw [hc] at h
          cases hr : broadcastRev s t with
          | error e => rw [hr] at h; exact absurd h (by simp)
          | ok rest =>
              rw [hr] at h
              cases h
              have := broadcastRev_length s t rest hr
              simp [List.length_cons, this, Nat.succ_max_succ]

theorem broadcast_length {s t u : List Nat} (h : broadcast s t = .ok u) :
    u.length = max s.length t.length := by
  unfold broadcast at h
  cases hr : broadcastRev s.reverse t.reverse with
  | error e => rw [hr] at h; exact absurd h (by simp)
  | ok r =>
      rw [hr] at h
      cases h
      have := broadcastRev_length _ _ _ hr
      simpa using this

theorem DKind.maxK_comm : ∀ a b : DKind, DKind.maxK a b = DKind.maxK b a := by
  intro a b; cases a <;> cases b <;> rfl

theorem DKind.maxK_assoc : ∀ a b c : DKind,
    DKind.maxK (DKind.maxK a b) c = DKind.maxK a (DKind.maxK b c) := by
  intro a b c; cases a <;> cases b <;> cases c <;> rfl

theorem DKind.maxK_level : ∀ a b : DKind,
    (DKind.maxK a b).level = max a.level b.level := by
  intro a b; cases a <;> cases b <;> rfl

/-- Claim C7: dtype promotion `resolve` is commutative and associative,
idempotent, moves strictly upward in the kind lattice whenever the two
kinds differ, and returns a width at least the width of every input whose
kind agrees with the promoted kind. -/
theorem C7_resolve_lattice (a b c : DType) :
    resolve a b = resolve b a ∧
    resolve (resolve a b) c = resolve a (resolve b c) ∧
    resolve a a = a ∧
    (resolve a b).kind.level = max a.kind.level b.kind.level ∧
    (a.kind ≠ b.kind → min a.kind.level b.kind.level < (resolve a b).kind.level) ∧
    (a.kind = (resolve a b).kind → a.width ≤ (resolve a b).width) ∧
    (b.kind = (resolve a b).kind → b.width ≤ (resolve a b).width) := by
  refine ⟨?_, ?_, ?_, ?_, ?_, ?_, ?_⟩
  · unfold resolve
    rw [DKind.maxK_comm, Nat.max_comm]
  · unfold resolve
    rw [DKind.maxK_assoc, Nat.max_assoc]
  · cases a with
    | mk k w => simp [resolve, DKind.maxK, Nat.max_self]
  · exact DKind.maxK_level a.kind b.kind
  · intro h
    rw [show (resolve a b).kind = DKind.maxK a.kind b.kind from rfl, DKind.maxK_level]
    rcases Nat.lt_or_ge a.kind.level b.kind.level with hlt | hge
    · rw [Nat.min_def, Nat.max_def]
      rw [if_pos (Nat.le_of_lt hlt), if_pos (Nat.le_of_lt hlt)]
      exact hlt
    · have hne : a.kind.level ≠ b.kind.level := by
        intro he
        apply h
        cases ha : a.kind <;> cases hb : b.kind <;> first
          | rfl
          | (rw [ha, hb] at he; exact absurd he (by decide))
      have hlt : b.kind.level < a.kind.level := Nat.lt_of_le_of_ne hge (fun e => hne e.symm)
      rw [Nat.min_def, Nat.max_def]
      rw [if_neg (Nat.not_le.mpr hlt), if_neg (Nat.not_le.mpr hlt)]
      exact hlt
  · intro _; exact Nat.le_max_left _ _
  · intro _; exact Nat.le_max_right _ _

theorem C7_resolve_lattice_witness :
    min (DKind.level .int) (DKind.level .real) <
      (resolve ⟨.int, 16⟩ ⟨.real, 32⟩).kind.level ∧
    resolve ⟨.int, 16⟩ ⟨.int, 16⟩ = ⟨.int, 16⟩ :=
  ⟨(C7_resolve_lattice ⟨.int, 16⟩ ⟨.real, 32⟩ ⟨.cplx, 64⟩).2.2.2.2.1 (by decide),
   (C7_resolve_lattice ⟨.int, 16⟩ ⟨.int, 16⟩ ⟨.int, 16⟩).2.2.1⟩

/-- Claim C8: broadcasting is commutative — for all shapes the two orders
give the same result, success or failure alike; an aligned dimension pair
is compatible exactly when the dimensions are equal or either is 1; and
`broadcast (3,1) (1,4) = (3,4)` while `broadcast (3,) (4,)` fails with
`BroadcastError`. -/
theorem C8_broadcast_comm (A B : List Nat) :
    broadcast A B = broadcast B A ∧
    (∀ a b : Nat, (combineDim a b).isOk = true ↔ (a = b ∨ a = 1 ∨ b = 1)) ∧
    broadcast [3, 1] [1, 4] = .ok [3, 4] ∧
    broadcast [3] [4] = .error .BroadcastError := by
  refine ⟨?_, ?_, by rfl, by rfl⟩
  · unfold broadcast
    rw [broadcastRev_comm]
  · intro a b
    unfold combineDim
    by_cases h1 : a = b
    · subst h1; simp [Except.isOk, Except.toBool]
    · rw [if_neg h1]
      by_cases h2 : a = 1
      · subst h2; rw [if_pos rfl]; simp [Except.isOk, Except.toBool]
      · rw [if_neg h2]
        by_cases h3 : b = 1
        · subst h3; rw [if_pos rfl]; simp [Except.isOk, Except.toBool]
        · rw [if_neg h3]; simp [Except.isOk, Except.toBool, h1, h2, h3]

/-! ## Exact complex scalars for the ContractionEngine (§4.3) -/

/-- Exact complex scalar: numeric array elements for contraction, with
integer real and imaginary components (real values have `im = 0`). -/
structure CQ where
  re : Int
  im : Int
deriving DecidableEq, Repr

/-- The zero scalar. -/
def CQ.zero : CQ := ⟨0, 0⟩

/-- Complex addition. -/
def CQ.add (a b : CQ) : CQ := ⟨a.re + b.re, a.im + b.im⟩

/-- Complex multiplication. -/
def CQ.mul (a b : CQ) : CQ := ⟨a.re * b.re - a.im * b.im, a.re * b.im + a.im * b.re⟩

/-- Complex conjugate (identity on real values). -/
def CQ.conj (a : CQ) : CQ := ⟨a.re, -a.im⟩

/-- Sum of a list of scalars. -/
def csum (l : List CQ) : CQ := l.foldr CQ.add CQ.zero

theorem CQ.add_zero (a : CQ) : CQ.add a CQ.zero = a := by
  cases a with
  | mk r i => simp [CQ.add, CQ.zero]

/-! ## Row-major layout: multi-index to flat position and back -/

/-- Row-major flat position of a multi-index in a shape. -/
def ravel : List Nat → List Nat → Nat
  | _ :: ds, i :: is => i * ds.prod + ravel ds is
  | _, _ => 0

/-- Multi-index of a row-major flat position in a shape. -/
def unravel : List Nat → Nat → List Nat
  | [], _ => []
  | _ :: ds, p => p / ds.prod :: unravel ds (p % ds.prod)

/-- A multi-index is valid for a shape when it has the same rank and every
coordinate is within its dimension. -/
def validIdx : List Nat → List Nat → Bool
  | [], [] => true
  | d :: s, i :: idx => decide (i < d) && validIdx s idx
  | _, _ => false

theorem validIdx_length : ∀ (s idx : List Nat), validIdx s idx = true →
    idx.length = s.length
  | [], [] => by intro _; rfl
  | [], _ :: _ => by intro h; exact absurd h (by simp [validIdx])
  | _ :: _, [] => by intro h; exact absurd h (by simp [validIdx])
  | d :: s, i :: idx => by
      intro h
      simp only [validIdx, Bool.and_eq_true] at h
      simpa using validIdx_length s idx h.2

theorem ravel_lt : ∀ (s idx : List Nat), validIdx s idx = true →
    ravel s idx < s.prod
  | [], [] => by intro _; simp [ravel]
  | [], _ :: _ => by intro h; exact absurd h (by simp [validIdx])
  | _ :: _, [] => by intro h; exact absurd h (by simp [validIdx])
  | d :: s, i :: idx => by
      intro h
      simp only [validIdx, Bool.and_eq_true, decide_eq_true_eq] at h
      obtain ⟨hi, hrest⟩ := h
      have ih := ravel_lt s idx hrest
      show i * s.prod + ravel s idx < (d :: s).prod
      rw [List.prod_cons]
      calc i * s.prod + ravel s idx < i * s.prod + s.prod := by omega
        _ = (i + 1) * s.prod := by ring
        _ ≤ d * s.prod := Nat.mul_le_mul_right _ hi

theorem unravel_ravel : ∀ (s idx : List Nat), validIdx s idx = true →
    unravel s (ravel s idx) = idx
  | [], [] => by intro _; rfl
  | [], _ :: _ => by intro h; exact absurd h (by simp [validIdx])
  | _ :: _, [] => by intro h; exact absurd h (by simp [validIdx])
  | d :: s, i :: idx => by
      intro h
      simp only [validIdx, Bool.and_eq_true, decide_eq_true_eq] at h
      obtain ⟨hi, hrest⟩ := h
      have hlt := ravel_lt s idx hrest
      have hpos : 0 < s.prod := by omega
      show (i * s.prod + ravel s idx) / s.prod ::
          unravel s ((i * s.prod + ravel s idx) % s.prod) = i :: idx
      rw [Nat.mul_comm i s.prod]
      rw [Nat.mul_add_mod, Nat.mod_eq_of_lt hlt]
      rw [Nat.mul_add_div hpos, Nat.div_eq_of_lt hlt, Nat.add_zero]
      rw [unravel_ravel s idx hrest]

theorem ravel_unravel : ∀ (s : List Nat) (p : Nat), p < s.prod →
    ravel s (unravel s p) = p
  | [], p => by
      intro h
      simp only [List.prod_nil] at h
      have : p = 0 := by omega
      subst this; rfl
  | d :: s, p => by
      intro h
      rw [List.prod_cons] at h
      have hpos : 0 < s.prod := by
        rcases Nat.eq_zero_or_pos s.prod with h0 | h0
        · rw [h0, Nat.mul_zero] at h; omega
        · exact h0
      show (p / s.prod) * s.prod + ravel s (unravel s (p % s.prod)) = p
      rw [ravel_unravel s (p % s.prod) (Nat.mod_lt _ hpos)]
      rw [Nat.mul_comm (p / s.prod) s.prod]
      exact Nat.div_add_mod p s.prod

theorem validIdx_unravel : ∀ (s : List Nat) (p : Nat), p < s.prod →
    validIdx s (unravel s p) = true
  | [], p => by intro _; rfl
  | d :: s, p => by
      intro h
      rw [List.prod_cons] at h
      have hpos : 0 < s.prod := by
        rcases Nat.eq_zero_or_pos s.prod with h0 | h0
        · rw [h0, Nat.mul_zero] at h; omega
        · exact h0
      show (decide (p / s.prod < d) && validIdx s (unravel s (p % s.prod))) = true
      rw [validIdx_unravel s (p % s.prod) (Nat.mod_lt _ hpos)]
      simp only [Bool.and_true, decide_eq_true_eq]
      exact (Nat.div_lt_iff_lt_mul hpos).mpr (by omega)

theorem validIdx_append : ∀ (s1 i1 s2 i2 : List Nat),
    validIdx s1 i1 = true → validIdx s2 i2 = true →
    validIdx (s1 ++ s2) (i1 ++ i2) = true
  | [], [], s2, i2 => by intro _ h2; simpa using h2
  | [], _ :: _, s2, i2 => by intro h _; exact absurd h (by simp [validIdx])
  | _ :: _, [], s2, i2 => by intro h _; exact absurd h (by simp [validIdx])
  | d :: s1, i :: i1, s2, i2 => by
      intro h1 h2
      simp only [validIdx, Bool.and_eq_true] at h1
      show (decide (i < d) && validIdx (s1 ++ s2) (i1 ++ i2)) = true
      rw [validIdx_append s1 i1 s2 i2 h1.2 h2]
      simpa using h1.1

theorem ravel_append : ∀ (s1 i1 s2 i2 : List Nat), i1.length = s1.length →
    ravel (s1 ++ s2) (i1 ++ i2) = ravel s1 i1 * s2.prod + ravel s2 i2
  | [], [], s2, i2 => by intro _; simp [ravel]
  | [], _ :: _, s2, i2 => by intro h; exact absurd h (by simp)
  | _ :: _, [], s2, i2 => by intro h; exact absurd h (by simp)
  | d :: s1, i :: i1, s2, i2 => by
      intro h
      show i * ((s1 ++ s2).prod) + ravel (s1 ++ s2) (i1 ++ i2) =
        (i * s1.prod + ravel s1 i1) * s2.prod + ravel s2 i2
      rw [List.prod_append, ravel_append s1 i1 s2 i2 (by simpa using h)]
      ring

/-- Evaluating a mapped range at a position below the bound. -/
theorem getD_map_range {α : Type} (f : Nat → α) (d : α) {n p : Nat} (h : p < n) :
    ((List.range n).map f).getD p d = f p := by
  rw [List.getD_eq_getElem?_getD, List.getElem?_map, List.getElem?_range h]
  rfl

/-! ## Array descriptors -/

/-- An array: a shape together with row-major flattened element data. -/
structure NDArr where
  shape : List Nat
  data : List CQ
deriving DecidableEq, Repr

/-- Element at a multi-index (zero outside the data). -/
def NDArr.get (a : NDArr) (idx : List Nat) : CQ :=
  a.data.getD (ravel a.shape idx) CQ.zero

/-- Element lookup through broadcasting: the trailing coordinates of a
result index are kept and coordinates over broadcast (size-1) dimensions
are clamped to 0. -/
def NDArr.bget (a : NDArr) (idx : List Nat) : CQ :=
  let idx2 := idx.drop (idx.length - a.shape.length)
  a.get (List.zipWith (fun d i => if d = 1 then 0 else i) a.shape idx2)

/-! ## matmul (§4.3) -/

/-- Inner product of two flat vectors (no implicit conjugation). -/
def dotList (u v : List CQ) : CQ := csum (List.zipWith CQ.mul u v)

/-- Modelled from the spec: the general branch of `matmul` — rank-1
operands are promoted to matrices by prepending/appending a 1, leading
axes are broadcast to a common batch shape, a conventional sum-of-products
matrix product is computed per batch index, and promoted axes are removed
from the result shape. -/
def matmulGeneral (x1 x2 : NDArr) : Except ArrErr NDArr :=
  let s1 := if x1.shape.length = 1 then 1 :: x1.shape else x1.shape
  let s2 := if x2.shape.length = 1 then x2.shape ++ [1] else x2.shape
  let m := s1.getD (s1.length - 2) 0
  let k := s1.getD (s1.length - 1) 0
  let k2 := s2.getD (s2.length - 2) 0
  let nn := s2.getD (s2.length - 1) 0
  if k ≠ k2 then .error .ShapeMismatchError
  else
    match broadcast s1.dropLast.dropLast s2.dropLast.dropLast with
    | .error e => .error e
    | .ok batch =>
        let a1 : NDArr := ⟨s1, x1.data⟩
        let a2 : NDArr := ⟨s2, x2.data⟩
        let outShape := batch ++ [m, nn]
        let data := (List.range outShape.prod).map (fun p =>
          let idx := unravel outShape p
          let b := idx.take batch.length
          let mi := idx.getD batch.length 0
          let ni := idx.getD (batch.length + 1) 0
          csum ((List.range k).map (fun t =>
            CQ.mul (a1.bget (b ++ [mi, t])) (a2.bget (b ++ [t, ni])))))
        let rshape := batch ++ (if x1.shape.length = 1 then [] else [m])
            ++ (if x2.shape.length = 1 then [] else [nn])
        .ok ⟨rshape, data⟩

/-- Modelled from the spec: `matmul` (§4.3 and the `matmul` docstring) —
rank-0 operands are rejected with `ShapeMismatchError`; two 1-D operands
of equal length give a 0-D array holding their inner product, of unequal
lengths a `ShapeMismatchError`; all other shapes go through the general
promoted/batched matrix product. -/
def matmul (x1 x2 : NDArr) : Except ArrErr NDArr :=
  match x1.shape, x2.shape with
  | [], _ => .error .ShapeMismatchError
  | _, [] => .error .ShapeMismatchError
  | [k1], [k2] =>
      if k1 = k2 then .ok ⟨[], [dotList x1.data x2.data]⟩
      else .error .ShapeMismatchError
  | _, _ => matmulGeneral x1 x2

/-- Claim C2: `matmul` on two 1-D arrays of equal length returns a 0-D
(rank-0) array whose only element is the conventional inner product of the
vectors, and on two 1-D arrays of unequal lengths raises
`ShapeMismatchError`. -/
theorem C2_matmul_vectors (d1 d2 : List CQ) :
    (d1.length = d2.length →
      matmul ⟨[d1.length], d1⟩ ⟨[d2.length], d2⟩ =
        .ok ⟨[], [csum (List.zipWith CQ.mul d1 d2)]⟩) ∧
    (d1.length ≠ d2.length →
      matmul ⟨[d1.length], d1⟩ ⟨[d2.length], d2⟩ = .error .ShapeMismatchError) := by
  have hm : matmul ⟨[d1.length], d1⟩ ⟨[d2.length], d2⟩ =
      if d1.length = d2.length then .ok ⟨[], [dotList d1 d2]⟩
      else .error .ShapeMismatchError := rfl
  constructor
  · intro h
    rw [hm, if_pos h]
    rfl
  · intro h
    rw [hm, if_neg h]

theorem C2_matmul_vectors_witness :
    matmul ⟨[3], [⟨1, 0⟩, ⟨2, 0⟩, ⟨3, 0⟩]⟩ ⟨[3], [⟨4, 0⟩, ⟨5, 0⟩, ⟨6, 0⟩]⟩ =
      .ok ⟨[], [⟨32, 0⟩]⟩ ∧
    matmul ⟨[2], [⟨1, 0⟩, ⟨2, 0⟩]⟩ ⟨[3], [⟨4, 0⟩, ⟨5, 0⟩, ⟨6, 0⟩]⟩ =
      .error .ShapeMismatchError := by
  constructor
  · have h := (C2_matmul_vectors [⟨1, 0⟩, ⟨2, 0⟩, ⟨3, 0⟩]
      [⟨4, 0⟩, ⟨5, 0⟩, ⟨6, 0⟩]).1 rfl
    exact h.trans (by rfl)
  · exact (C2_matmul_vectors [⟨1, 0⟩, ⟨2, 0⟩] [⟨4, 0⟩, ⟨5, 0⟩, ⟨6, 0⟩]).2
      (by decide)

/-! ## vecdot (§4.4 of the contract, `vecdot` docstring) -/

/-- A broadcast error is the only failure `broadcastRev` produces. -/
theorem broadcastRev_error : ∀ (s t : List Nat) (e : ArrErr),
    broadcastRev s t = .error e → e = .BroadcastError
  | [], t, e => by intro h; simp [broadcastRev] at h
  | _ :: _, [], e => by intro h; simp [broadcastRev] at h
  | a :: s, b :: t, e => by
      intro h
      unfold broadcastRev at h
      cases hc : combineDim a b with
      | error e2 =>
          have he2 : e2 = ArrErr.BroadcastError := by
            unfold combineDim at hc
            by_cases h1 : a = b
            · rw [if_pos h1] at hc; exact absurd hc (by simp)
            · rw [if_neg h1] at hc
              by_cases h2 : a = 1
              · rw [if_pos h2] at hc; exact absurd hc (by simp)
              · rw [if_neg h2] at hc
                by_cases h3 : b = 1
                · rw [if_pos h3] at hc; exact absurd hc (by simp)
                · rw [if_neg h3] at hc
                  exact (Except.error.inj hc).symm
          cases hr : broadcastRev s t with
          | error e3 =>
              rw [hc, hr] at h
              cases h
              exact he2
          | ok rest =>
              rw [hc, hr] at h
              cases h
              exact he2
      | ok d =>
          rw [hc] at h
          cases hr : broadcastRev s t with
          | error e2 =>
              rw [hr] at h
              cases h
              exact broadcastRev_error s t _ hr
          | ok rest => rw [hr] at h; exact absurd h (by simp)

theorem broadcast_error {s t : List Nat} {e : ArrErr}
    (h : broadcast s t = .error e) : e = .BroadcastError := by
  unfold broadcast at h
  cases hr : broadcastRev s.reverse t.reverse with
  | error e2 =>
      rw [hr] at h
      cases h
      exact broadcastRev_error _ _ _ hr
  | ok r => rw [hr] at h; exact absurd h (by simp)

/-- Element of an operand during `vecdot`: the trailing non-contracted
coordinates of the result index are taken, the contraction coordinate `t`
is inserted at the contracted position `ax`, and coordinates over
broadcast (size-1) dimensions are clamped to 0. -/
def vget (x : NDArr) (ax : Nat) (j : List Nat) (t : Nat) : CQ :=
  let r := x.shape.length
  let jloc := j.drop (j.length - (r - 1))
  x.get (List.zipWith (fun d i => if d = 1 then 0 else i) x.shape
    (jloc.take ax ++ t :: jloc.drop ax))

/-- Modelled from the spec: `vecdot(A, B, axis)` (§4.4 and the `vecdot`
docstring) — the axis must be a negative integer on `[-N, -1]` with
`N = min(rank A, rank B)` (the 2023.12 docstring restricts `axis` to only
negative integers), it resolves by counting backward from the last axis of
each operand, the contracted sizes must match exactly
(`ShapeMismatchError`), the remaining axes broadcast, and every output
element is the sum over the contracted axis of `conj(a_i) * b_i`, with
conjugation applied to the first operand only. -/
def vecdot (x1 x2 : NDArr) (axis : Int) : Except ArrErr NDArr :=
  let r1 := x1.shape.length
  let r2 := x2.shape.length
  let N : Int := (min r1 r2 : Nat)
  if axis < -N ∨ (-1 : Int) < axis then .error .InvalidAxisError
  else
    let a1 := r1 - (-axis).toNat
    let a2 := r2 - (-axis).toNat
    let m1 := x1.shape.getD a1 0
    let m2 := x2.shape.getD a2 0
    if m1 ≠ m2 then .error .ShapeMismatchError
    else
      match broadcast (x1.shape.eraseIdx a1) (x2.shape.eraseIdx a2) with
      | .error e => .error e
      | .ok rs =>
          .ok ⟨rs, (List.range rs.prod).map (fun p =>
            let j := unravel rs p
            csum ((List.range m1).map (fun t =>
              CQ.mul (CQ.conj (vget x1 a1 j t)) (vget x2 a2 j t))))⟩

/-- Claim C4: whenever `vecdot` succeeds, every element of the result is
the sum over the contracted axis of `conj(a_i) * b_i` — the conjugate
taken of the first operand only — and the result is rank 0 when both
operands are rank 1, otherwise it has one fewer axis than the broadcast
rank (the max of the operand ranks). -/
theorem C4_vecdot_conjugation (x1 x2 : NDArr) (axis : Int) (y : NDArr)
    (h : vecdot x1 x2 axis = .ok y) :
    (y.shape.length + 1 = max x1.shape.length x2.shape.length) ∧
    (x1.shape.length = 1 → x2.shape.length = 1 → y.shape = []) ∧
    (∀ j, validIdx y.shape j = true →
      y.get j = csum ((List.range
          (x1.shape.getD (x1.shape.length - (-axis).toNat) 0)).map (fun t =>
        CQ.mul
          (CQ.conj (vget x1 (x1.shape.length - (-axis).toNat) j t))
          (vget x2 (x2.shape.length - (-axis).toNat) j t)))) := by
  unfold vecdot at h
  by_cases hax : axis < -((min x1.shape.length x2.shape.length : Nat) : Int) ∨
      (-1 : Int) < axis
  · rw [if_pos hax] at h
    exact absurd h (by simp)
  · rw [if_neg hax] at h
    push_neg at hax
    obtain ⟨haxN, hax1⟩ := hax
    by_cases hm : x1.shape.getD (x1.shape.length - (-axis).toNat) 0 ≠
        x2.shape.getD (x2.shape.length - (-axis).toNat) 0
    · rw [if_pos hm] at h
      exact absurd h (by simp)
    · rw [if_neg hm] at h
      cases hb : broadcast
          (x1.shape.eraseIdx (x1.shape.length - (-axis).toNat))
          (x2.shape.eraseIdx (x2.shape.length - (-axis).toNat)) with
      | error e => rw [hb] at h; exact absurd h (by simp)
      | ok rs =>
          rw [hb] at h
          have hy : y = ⟨rs, (List.range rs.prod).map (fun p =>
              let j := unravel rs p
              csum ((List.range
                  (x1.shape.getD (x1.shape.length - (-axis).toNat) 0)).map
                (fun t =>
                  CQ.mul (CQ.conj (vget x1 (x1.shape.length - (-axis).toNat) j t))
                    (vget x2 (x2.shape.length - (-axis).toNat) j t))))⟩ :=
            (Except.ok.inj h).symm
          subst hy
          have hk1 : 1 ≤ (-axis).toNat := by omega
          have hkN : (-axis).toNat ≤ min x1.shape.length x2.shape.length := by
            omega
          have hr1 : 1 ≤ x1.shape.length := by omega
          have hr2 : 1 ≤ x2.shape.length := by omega
          have ha1lt : x1.shape.length - (-axis).toNat < x1.shape.length := by
            omega
          have ha2lt : x2.shape.length - (-axis).toNat < x2.shape.length := by
            omega
          have hlen : rs.length = max (x1.shape.length - 1)
              (x2.shape.length - 1) := by
            have := broadcast_length hb
            rw [List.length_eraseIdx_of_lt ha1lt,
              List.length_eraseIdx_of_lt ha2lt] at this
            exact this
          refine ⟨?_, ?_, ?_⟩
          · show rs.length + 1 = max x1.shape.length x2.shape.length
            omega
          · intro h1 h2
            show rs = []
            rw [← List.length_eq_zero, hlen, h1, h2]
            rfl
          · intro j hj
            show ((List.range rs.prod).map _).getD (ravel rs j) CQ.zero = _
            rw [getD_map_range _ _ (ravel_lt rs j hj)]
            rw [unravel_ravel rs j hj]

theorem C4_vecdot_conjugation_witness :
    (NDArr.mk [] [⟨1, 0⟩]).get [] = ⟨1, 0⟩ ∧ (NDArr.mk [] [⟨1, 0⟩]).shape = [] := by
  have h := C4_vecdot_conjugation ⟨[1], [⟨0, 1⟩]⟩ ⟨[1], [⟨0, 1⟩]⟩ (-1)
    ⟨[], [⟨1, 0⟩]⟩ (by rfl)
  refine ⟨?_, h.2.1 rfl rfl⟩
  have he := h.2.2 [] rfl
  exact he.trans (by rfl)

/-- Claim C5 counterexample: for two rank-1 operands `N = 1` and the claim
asserts every axis in `[-N, N)` — hence axis `0` — is accepted, but the
`vecdot` docstring (2023.12, "Restricted `axis` to only negative
integers") confines `axis` to `[-N, -1]`, so axis `0` is rejected with
`InvalidAxisError`. -/
theorem C5_counterexample :
    vecdot ⟨[2], [⟨1, 0⟩, ⟨2, 0⟩]⟩ ⟨[2], [⟨3, 0⟩, ⟨4, 0⟩]⟩ 0 =
      .error .InvalidAxisError := by rfl

/-- Claim C5 (amended): with `N = min(rank x1, rank x2)`, every integer
axis satisfying `-N ≤ axis ≤ -1` passes axis validation (negative axis
values are resolved by counting backward from the last axis, i.e. to
position `rank + axis` in each operand), and every axis outside
`[-N, -1]` raises `InvalidAxisError`. -/
theorem C5_vecdot_axis_validation (x1 x2 : NDArr) (axis : Int) :
    ((-(min x1.shape.length x2.shape.length : Nat) : Int) ≤ axis ∧
        axis ≤ -1 →
      vecdot x1 x2 axis ≠ .error .InvalidAxisError) ∧
    ((axis < -(min x1.shape.length x2.shape.length : Nat) ∨
        (-1 : Int) < axis) →
      vecdot x1 x2 axis = .error .InvalidAxisError) := by
  constructor
  · intro hvalid
    unfold vecdot
    rw [if_neg (by omega)]
    by_cases hm : x1.shape.getD (x1.shape.length - (-axis).toNat) 0 ≠
        x2.shape.getD (x2.shape.length - (-axis).toNat) 0
    · rw [if_pos hm]
      simp
    · rw [if_neg hm]
      cases hb : broadcast
          (x1.shape.eraseIdx (x1.shape.length - (-axis).toNat))
          (x2.shape.eraseIdx (x2.shape.length - (-axis).toNat)) with
      | error e =>
          have := broadcast_error hb
          subst this
          simp
      | ok rs => simp
  · intro hbad
    unfold vecdot
    rw [if_pos hbad]

theorem C5_vecdot_axis_validation_witness :
    vecdot ⟨[2], [⟨1, 0⟩, ⟨2, 0⟩]⟩ ⟨[2], [⟨3, 0⟩, ⟨4, 0⟩]⟩ 5 =
      .error .InvalidAxisError ∧
    vecdot ⟨[2], [⟨1, 0⟩, ⟨2, 0⟩]⟩ ⟨[2], [⟨3, 0⟩, ⟨4, 0⟩]⟩ (-1) ≠
      .error .InvalidAxisError :=
  ⟨(C5_vecdot_axis_validation ⟨[2], [⟨1, 0⟩, ⟨2, 0⟩]⟩
      ⟨[2], [⟨3, 0⟩, ⟨4, 0⟩]⟩ 5).2 (by norm_num),
   (C5_vecdot_axis_validation ⟨[2], [⟨1, 0⟩, ⟨2, 0⟩]⟩
      ⟨[2], [⟨3, 0⟩, ⟨4, 0⟩]⟩ (-1)).1 (by norm_num)⟩

/-! ## tensordot (§4.3, `tensordot` docstring) -/

/-- All valid multi-indices of a shape, in row-major order. -/
def allIdx (s : List Nat) : List (List Nat) :=
  (List.range s.prod).map (unravel s)

/-- Modelled from the spec: `tensordot(A, B, axes = N)` for a nonnegative
integer `N` (§4.3 and the `tensordot` docstring) — the last `N` axes of
`x1` are contracted against the first `N` axes of `x2` pairwise in order,
each contracted pair must have equal size (`ShapeMismatchError`), and the
result shape is the non-contracted axes of `x1` in order followed by the
non-contracted axes of `x2` in order.  The sequence-pair form of `axes`
is not needed by any claim and is not modelled. -/
def tensordot (x1 x2 : NDArr) (n : Nat) : Except ArrErr NDArr :=
  if n > x1.shape.length ∨ n > x2.shape.length then .error .InvalidAxisError
  else
    let c1 := x1.shape.drop (x1.shape.length - n)
    let c2 := x2.shape.take n
    if c1 ≠ c2 then .error .ShapeMismatchError
    else
      let outShape := x1.shape.take (x1.shape.length - n) ++ x2.shape.drop n
      .ok ⟨outShape, (List.range outShape.prod).map (fun p =>
        let idx := unravel outShape p
        let i := idx.take (x1.shape.length - n)
        let j := idx.drop (x1.shape.length - n)
        csum ((allIdx c1).map (fun k =>
          CQ.mul (x1.get (i ++ k)) (x2.get (k ++ j)))))⟩

/-- Claim C6: for every nonnegative `N` at most either rank whose
contracted axis pairs match, `tensordot` succeeds, its shape is the
non-contracted axes of `x1` in original order followed by those of `x2`,
each element is the pairwise-in-order contraction of the last `N` axes of
`x1` with the first `N` axes of `x2`, and `N = 0` yields the tensor
(outer) product. -/
theorem C6_tensordot_contraction (x1 x2 : NDArr) (n : Nat)
    (hn1 : n ≤ x1.shape.length) (hn2 : n ≤ x2.shape.length)
    (hc : x1.shape.drop (x1.shape.length - n) = x2.shape.take n) :
    ∃ y, tensordot x1 x2 n = .ok y ∧
      y.shape = x1.shape.take (x1.shape.length - n) ++ x2.shape.drop n ∧
      (∀ i j, validIdx (x1.shape.take (x1.shape.length - n)) i = true →
        validIdx (x2.shape.drop n) j = true →
        y.get (i ++ j) =
          csum ((allIdx (x1.shape.drop (x1.shape.length - n))).map
            (fun k => CQ.mul (x1.get (i ++ k)) (x2.get (k ++ j))))) ∧
      (n = 0 → ∀ i j, validIdx x1.shape i = true → validIdx x2.shape j = true →
        y.get (i ++ j) = CQ.mul (x1.get i) (x2.get j)) := by
  have hne : ¬ (n > x1.shape.length ∨ n > x2.shape.length) := by omega
  refine ⟨⟨x1.shape.take (x1.shape.length - n) ++ x2.shape.drop n,
    (List.range (x1.shape.take (x1.shape.length - n) ++ x2.shape.drop n).prod).map
      (fun p =>
        let idx := unravel (x1.shape.take (x1.shape.length - n) ++ x2.shape.drop n) p
        let i := idx.take (x1.shape.length - n)
        let j := idx.drop (x1.shape.length - n)
        csum ((allIdx (x1.shape.drop (x1.shape.length - n))).map (fun k =>
          CQ.mul (x1.get (i ++ k)) (x2.get (k ++ j)))))⟩, ?_, rfl, ?_, ?_⟩
  · unfold tensordot
    rw [if_neg hne, if_neg (fun hne2 => hne2 hc)]
  · intro i j hi hj
    have hvi : validIdx (x1.shape.take (x1.shape.length - n) ++ x2.shape.drop n)
        (i ++ j) = true := validIdx_append _ _ _ _ hi hj
    have hil : i.length = x1.shape.length - n := by
      rw [validIdx_length _ _ hi, List.length_take]
      omega
    simp only [NDArr.get, getD_map_range _ _ (ravel_lt _ _ hvi),
      unravel_ravel _ _ hvi]
    rw [List.take_left' hil, List.drop_left' hil]
  · intro h0 i j hi hj
    subst h0
    have hvi : validIdx (x1.shape.take (x1.shape.length - 0) ++ x2.shape.drop 0)
        (i ++ j) = true := by
      rw [Nat.sub_zero, List.take_length, List.drop_zero]
      exact validIdx_append _ _ _ _ hi hj
    have hil : i.length = x1.shape.length - 0 := by
      rw [validIdx_length _ _ hi]
      omega
    simp only [NDArr.get, getD_map_range _ _ (ravel_lt _ _ hvi),
      unravel_ravel _ _ hvi]
    rw [List.take_left' hil, List.drop_left' hil]
    rw [Nat.sub_zero, List.drop_length]
    show csum ((allIdx []).map (fun k =>
      CQ.mul (x1.data.getD (ravel x1.shape (i ++ k)) CQ.zero)
        (x2.data.getD (ravel x2.shape (k ++ j)) CQ.zero))) =
      CQ.mul (x1.data.getD (ravel x1.shape i) CQ.zero)
        (x2.data.getD (ravel x2.shape j) CQ.zero)
    show CQ.add (CQ.mul (x1.data.getD (ravel x1.shape (i ++ [])) CQ.zero)
      (x2.data.getD (ravel x2.shape ([] ++ j)) CQ.zero)) CQ.zero = _
    rw [List.append_nil, List.nil_append, CQ.add_zero]

theorem C6_tensordot_contraction_witness :
    ∃ y, tensordot ⟨[2], [⟨1, 0⟩, ⟨2, 0⟩]⟩ ⟨[3], [⟨3, 0⟩, ⟨4, 0⟩, ⟨5, 0⟩]⟩ 0 =
        .ok y ∧
      y.shape = [2, 3] ∧ y.get [1, 2] = ⟨10, 0⟩ := by
  obtain ⟨y, hy, hsh, hmain, houter⟩ := C6_tensordot_contraction
    ⟨[2], [⟨1, 0⟩, ⟨2, 0⟩]⟩ ⟨[3], [⟨3, 0⟩, ⟨4, 0⟩, ⟨5, 0⟩]⟩ 0
    (by decide) (by decide) (by rfl)
  refine ⟨y, hy, by simpa using hsh, ?_⟩
  have hv := houter rfl [1] [2] (by decide) (by decide)
  exact hv.trans (by rfl)

/-! ## UniquenessEngine (§4.4, set_functions docstrings) -/

/-- Modelled from the spec: a floating-point-like scalar — an exact value
extended with `nan` and the two signed zeros, the cases the uniqueness
rules single out. -/
inductive FVal where
  | nan : FVal
  | pzero : FVal
  | nzero : FVal
  | num : ℚ → FVal
deriving DecidableEq, Repr

/-- NaN test for a scalar component. -/
def FVal.isNaN : FVal → Bool
  | .nan => true
  | _ => false

/-- Numeric value of a component; both signed zeros denote 0 (the value
returned for `nan` is never consulted by value equality). -/
def FVal.toQ : FVal → ℚ
  | .nan => 0
  | .pzero => 0
  | .nzero => 0
  | .num q => q

/-- Modelled from the spec: a complex element of the input stream; real
inputs are embedded with a `+0` imaginary part. -/
structure CVal where
  re : FVal
  im : FVal
deriving DecidableEq, Repr

instance : Inhabited CVal := ⟨⟨.pzero, .pzero⟩⟩

/-- An element is NaN-bearing when either component is NaN. -/
def CVal.isNaN (v : CVal) : Bool := v.re.isNaN || v.im.isNaN

/-- Value equality (`equal` semantics): false whenever either side bears a
NaN, and componentwise numeric equality otherwise — so `-0` equals `+0`. -/
def CVal.valEq (v w : CVal) : Bool :=
  !v.isNaN && !w.isNaN &&
    decide (v.re.toQ = w.re.toQ ∧ v.im.toQ = w.im.toQ)

/-- A signed-zero element: value-equal to `+0`. -/
def CVal.isZero (v : CVal) : Bool := CVal.valEq v ⟨.pzero, .pzero⟩

theorem valEq_true_iff (v w : CVal) : CVal.valEq v w = true ↔
    (v.isNaN = false ∧ w.isNaN = false ∧
      v.re.toQ = w.re.toQ ∧ v.im.toQ = w.im.toQ) := by
  unfold CVal.valEq
  simp [Bool.and_eq_true, Bool.not_eq_true', decide_eq_true_iff, and_assoc]

theorem valEq_refl {v : CVal} (h : v.isNaN = false) : CVal.valEq v v = true :=
  (valEq_true_iff v v).mpr ⟨h, h, rfl, rfl⟩

theorem valEq_not_nan_left {v w : CVal} (h : CVal.valEq v w = true) :
    v.isNaN = false := ((valEq_true_iff v w).mp h).1

theorem valEq_not_nan_right {v w : CVal} (h : CVal.valEq v w = true) :
    w.isNaN = false := ((valEq_true_iff v w).mp h).2.1

/-- Value-equal partners determine the same value-equality predicate. -/
theorem valEq_congr_right {a b : CVal} (h : CVal.valEq a b = true) (v : CVal) :
    CVal.valEq v a = CVal.valEq v b := by
  obtain ⟨ha, hb, hre, him⟩ := (valEq_true_iff a b).mp h
  unfold CVal.valEq
  rw [ha, hb, hre, him]

theorem isZero_iff (v : CVal) : CVal.isZero v = true ↔
    (v.isNaN = false ∧ v.re.toQ = 0 ∧ v.im.toQ = 0) := by
  unfold CVal.isZero
  rw [valEq_true_iff]
  constructor
  · rintro ⟨h1, _, h3, h4⟩; exact ⟨h1, h3, h4⟩
  · rintro ⟨h1, h3, h4⟩; exact ⟨h1, rfl, h3, h4⟩

/-- Group key of position `i`: a NaN-bearing element keys to its own
position (singleton group), any other element keys to the first
value-equal position. -/
def groupKey (xs : List CVal) (i : Nat) : Nat :=
  if (xs.getD i default).isNaN then i
  else xs.findIdx (fun v => CVal.valEq v (xs.getD i default))

/-- The group leaders: positions that are their own key, in input order —
exactly the first occurrences of the groups. -/
def leaders (xs : List CVal) : List Nat :=
  (List.range xs.length).filter (fun i => groupKey xs i == i)

/-- The four parallel sequences of §3's UniqueResult. -/
structure UniqueResult where
  values : List CVal
  indices : List Nat
  inverse_indices : List Nat
  counts : List Nat
deriving DecidableEq, Repr

/-- Modelled from the spec: `unique_all` (set_functions docstring, §4.4) —
groups the flattened element stream by value equality, with every
NaN-bearing occurrence in its own singleton group and all signed zeros
merged; returns unique values (first occurrence wins), first-occurrence
indices, the inverse mapping, and the counts. -/
def unique_all (xs : List CVal) : UniqueResult :=
  let L := leaders xs
  { values := L.map (fun p => xs.getD p default)
    indices := L
    inverse_indices :=
      (List.range xs.length).map (fun i => L.indexOf (groupKey xs i))
    counts := L.map (fun p =>
      (List.range xs.length).countP (fun i => groupKey xs i == p)) }

/-- Modelled from the spec: `unique_counts`, the values+counts projection
of `unique_all`. -/
def unique_counts (xs : List CVal) : List CVal × List Nat :=
  ((unique_all xs).values, (unique_all xs).counts)

/-- Modelled from the spec: `unique_inverse`, the values+inverse
projection of `unique_all`. -/
def unique_inverse (xs : List CVal) : List CVal × List Nat :=
  ((unique_all xs).values, (unique_all xs).inverse_indices)

/-- Modelled from the spec: `unique_values`, the values-only projection of
`unique_all`. -/
def unique_values (xs : List CVal) : List CVal :=
  (unique_all xs).values

theorem getD_eq_get {α : Type} (l : List α) (d : α) {i : Nat}
    (h : i < l.length) : l.getD i d = l[i] := by
  rw [List.getD_eq_getElem?_getD, List.getElem?_eq_getElem h]
  rfl

theorem getD_map {α β : Type} (f : α → β) (l : List α) (d : β) {k : Nat}
    (h : k < l.length) : (l.map f).getD k d = f l[k] := by
  rw [List.getD_eq_getElem?_getD, List.getElem?_map, List.getElem?_eq_getElem h]
  rfl

theorem findIdx_congr {α : Type} {p q : α → Bool} :
    ∀ (l : List α), (∀ x ∈ l, p x = q x) → l.findIdx p = l.findIdx q
  | [], _ => rfl
  | a :: l, h => by
      rw [List.findIdx_cons, List.findIdx_cons, h a (by simp)]
      cases hq : q a with
      | true => rfl
      | false =>
          simp only [cond_false]
          rw [findIdx_congr l (fun x hx => h x (by simp [hx]))]

theorem map_getD_range {α : Type} (l : List α) (d : α) :
    (List.range l.length).map (fun i => l.getD i d) = l := by
  induction l with
  | nil => rfl
  | cons x xs ih =>
      rw [List.length_cons, List.range_succ_eq_map, List.map_cons, List.map_map]
      have h2 : List.map ((fun i => (x :: xs).getD i d) ∘ Nat.succ)
          (List.range xs.length) =
          List.map (fun i => xs.getD i d) (List.range xs.length) := by
        apply List.map_congr_left
        intro i _
        rfl
      rw [h2, ih]
      rfl

theorem getD_mem {α : Type} (l : List α) (d : α) {i : Nat} (h : i < l.length) :
    l.getD i d ∈ l := by
  rw [getD_eq_get l d h]
  exact List.getElem_mem h

theorem groupKey_nan {xs : List CVal} {i : Nat}
    (h : (xs.getD i default).isNaN = true) : groupKey xs i = i := by
  unfold groupKey
  rw [h]
  rfl

theorem groupKey_not_nan {xs : List CVal} {i : Nat}
    (h : (xs.getD i default).isNaN = false) :
    groupKey xs i = xs.findIdx (fun v => CVal.valEq v (xs.getD i default)) := by
  unfold groupKey
  rw [h]
  rfl

theorem groupKey_lt {xs : List CVal} {i : Nat} (h : i < xs.length) :
    groupKey xs i < xs.length := by
  cases hn : (xs.getD i default).isNaN with
  | true => rw [groupKey_nan hn]; exact h
  | false =>
      rw [groupKey_not_nan hn]
      exact List.findIdx_lt_length_of_exists
        ⟨xs.getD i default, getD_mem xs default h, valEq_refl hn⟩

theorem valEq_groupKey {xs : List CVal} {i : Nat} (hi : i < xs.length)
    (hn : (xs.getD i default).isNaN = false) :
    CVal.valEq (xs.getD (groupKey xs i) default) (xs.getD i default) = true := by
  have hlt : xs.findIdx (fun v => CVal.valEq v (xs.getD i default)) < xs.length :=
    List.findIdx_lt_length_of_exists
      ⟨xs.getD i default, getD_mem xs default hi, valEq_refl hn⟩
  rw [groupKey_not_nan hn, getD_eq_get _ _ hlt]
  exact List.findIdx_getElem (w := hlt)

theorem groupKey_idem {xs : List CVal} {i : Nat} (hi : i < xs.length) :
    groupKey xs (groupKey xs i) = groupKey xs i := by
  cases hn : (xs.getD i default).isNaN with
  | true => rw [groupKey_nan hn, groupKey_nan hn]
  | false =>
      have hveq := valEq_groupKey hi hn
      have hgnan := valEq_not_nan_left hveq
      rw [groupKey_not_nan hgnan]
      rw [findIdx_congr xs (fun x _ => valEq_congr_right hveq x)]
      exact (groupKey_not_nan hn).symm

theorem groupKey_mem_leaders {xs : List CVal} {i : Nat} (hi : i < xs.length) :
    groupKey xs i ∈ leaders xs := by
  unfold leaders
  rw [List.mem_filter]
  exact ⟨List.mem_range.mpr (groupKey_lt hi), by simp [groupKey_idem hi]⟩

theorem leaders_nodup (xs : List CVal) : (leaders xs).Nodup :=
  (List.nodup_range _).filter _

theorem sum_map_add_nat {α : Type} (L : List α) (f g : α → Nat) :
    (L.map (fun x => f x + g x)).sum = (L.map f).sum + (L.map g).sum := by
  induction L with
  | nil => rfl
  | cons a L ih =>
      rw [List.map_cons, List.sum_cons, ih, List.map_cons, List.sum_cons,
        List.map_cons, List.sum_cons]
      omega

theorem sum_map_indicator : ∀ (L : List Nat), L.Nodup → ∀ {b : Nat}, b ∈ L →
    (L.map (fun p => if b == p then 1 else 0)).sum = 1
  | [], _, _, hb => by cases hb
  | q :: L, hN, b, hb => by
      rw [List.map_cons, List.sum_cons]
      by_cases hbq : b = q
      · subst hbq
        rw [if_pos (by simp)]
        have hnot : b ∉ L := (List.nodup_cons.mp hN).1
        have hz : (L.map (fun p => if b == p then 1 else 0)).sum = 0 := by
          apply List.sum_eq_zero
          intro x hx
          obtain ⟨p, hp, hpx⟩ := List.mem_map.mp hx
          have hbp : b ≠ p := fun he => hnot (he ▸ hp)
          rw [← hpx, if_neg (by simpa using hbp)]
        rw [hz]
      · rw [if_neg (by simpa using hbq)]
        have hb2 : b ∈ L := by
          cases List.mem_cons.mp hb with
          | inl h => exact absurd h hbq
          | inr h => exact h
        rw [sum_map_indicator L (List.nodup_cons.mp hN).2 hb2, Nat.zero_add]

theorem sum_countP_fibers : ∀ (l : List Nat) (L : List Nat) (g : Nat → Nat),
    L.Nodup → (∀ i ∈ l, g i ∈ L) →
    (L.map (fun p => l.countP (fun i => g i == p))).sum = l.length
  | [], L, g, hN, hg => by
      rw [List.length_nil]
      apply List.sum_eq_zero
      intro x hx
      obtain ⟨p, _, hpx⟩ := List.mem_map.mp hx
      rw [← hpx, List.countP_nil]
  | a :: l, L, g, hN, hg => by
      have hmap : L.map (fun p => List.countP (fun i => g i == p) (a :: l)) =
          L.map (fun p => List.countP (fun i => g i == p) l +
            (if g a == p then 1 else 0)) := by
        apply List.map_congr_left
        intro p _
        rw [List.countP_cons]
      rw [hmap, sum_map_add_nat]
      rw [sum_countP_fibers l L g hN (fun i hi => hg i (by simp [hi]))]
      rw [sum_map_indicator L hN (hg a (by simp))]
      rw [List.length_cons]

theorem inverse_getD {xs : List CVal} {i : Nat} (hi : i < xs.length) :
    (unique_all xs).inverse_indices.getD i 0 =
      (leaders xs).indexOf (groupKey xs i) :=
  getD_map_range _ _ hi

theorem counts_getD {xs : List CVal} {p : Nat} (hp : p ∈ leaders xs) :
    (unique_all xs).counts.getD ((leaders xs).indexOf p) 0 =
      (List.range xs.length).countP (fun i => groupKey xs i == p) := by
  have hlt : (leaders xs).indexOf p < (leaders xs).length :=
    List.indexOf_lt_length.mpr hp
  have h1 := getD_map (fun q =>
    (List.range xs.length).countP (fun i => groupKey xs i == q)) (leaders xs) 0 hlt
  rw [show (unique_all xs).counts = (leaders xs).map (fun q =>
    (List.range xs.length).countP (fun i => groupKey xs i == q)) from rfl]
  rw [h1, List.getElem_indexOf hlt]

theorem values_getD {xs : List CVal} {p : Nat} (hp : p ∈ leaders xs) :
    (unique_all xs).values.getD ((leaders xs).indexOf p) default =
      xs.getD p default := by
  have hlt : (leaders xs).indexOf p < (leaders xs).length :=
    List.indexOf_lt_length.mpr hp
  have h1 := getD_map (fun q => xs.getD q default) (leaders xs) default hlt
  rw [show (unique_all xs).values = (leaders xs).map
    (fun q => xs.getD q default) from rfl]
  rw [h1, List.getElem_indexOf hlt]

/-- A NaN-bearing position is the sole member of its own group. -/
theorem nan_fiber {xs : List CVal} {i : Nat} (hi : i < xs.length)
    (hn : (xs.getD i default).isNaN = true) :
    ∀ j, j < xs.length → (groupKey xs j = i ↔ j = i) := by
  intro j hj
  constructor
  · intro hgk
    cases hjn : (xs.getD j default).isNaN with
    | true => rw [groupKey_nan hjn] at hgk; exact hgk
    | false =>
        have hveq := valEq_groupKey hj hjn
        rw [hgk] at hveq
        have hfalse := valEq_not_nan_left hveq
        rw [hfalse] at hn
        exact Bool.noConfusion hn
  · intro h
    subst h
    exact groupKey_nan hn

/-- Any two signed-zero positions share one group key. -/
theorem zero_groupKey_eq {xs : List CVal} {i j : Nat} (_hi : i < xs.length)
    (_hj : j < xs.length) (hzi : CVal.isZero (xs.getD i default) = true)
    (hzj : CVal.isZero (xs.getD j default) = true) :
    groupKey xs i = groupKey xs j := by
  obtain ⟨hni, hri, hii⟩ := (isZero_iff _).mp hzi
  obtain ⟨hnj, hrj, hij⟩ := (isZero_iff _).mp hzj
  have hveq : CVal.valEq (xs.getD i default) (xs.getD j default) = true :=
    (valEq_true_iff _ _).mpr ⟨hni, hnj, by rw [hri, hrj], by rw [hii, hij]⟩
  rw [groupKey_not_nan hni, groupKey_not_nan hnj]
  exact findIdx_congr xs (fun x _ => valEq_congr_right hveq x)

/-- The group of a signed-zero position consists exactly of the
signed-zero positions. -/
theorem zero_fiber {xs : List CVal} {i : Nat} (hi : i < xs.length)
    (hzi : CVal.isZero (xs.getD i default) = true) :
    ∀ j, j < xs.length →
      (groupKey xs j = groupKey xs i ↔
        CVal.isZero (xs.getD j default) = true) := by
  intro j hj
  obtain ⟨hni, hri, hii⟩ := (isZero_iff _).mp hzi
  constructor
  · intro hgk
    have hpi := valEq_groupKey hi hni
    cases hjn : (xs.getD j default).isNaN with
    | true =>
        rw [groupKey_nan hjn] at hgk
        have hnp := valEq_not_nan_left hpi
        rw [← hgk] at hnp
        rw [hnp] at hjn
        exact Bool.noConfusion hjn
    | false =>
        have hpj := valEq_groupKey hj hjn
        rw [hgk] at hpj
        obtain ⟨hp1, hp2, hp3, hp4⟩ := (valEq_true_iff _ _).mp hpi
        obtain ⟨_, hq2, hq3, hq4⟩ := (valEq_true_iff _ _).mp hpj
        refine (isZero_iff _).mpr ⟨hq2, ?_, ?_⟩
        · rw [← hq3, hp3, hri]
        · rw [← hq4, hp4, hii]
  · intro hzj
    exact zero_groupKey_eq hj hi hzj hzi

/-- Counting a value-predicate over positions equals counting it over the
elements. -/
theorem countP_getD_range (xs : List CVal) (q : CVal → Bool) :
    (List.range xs.length).countP (fun j => q (xs.getD j default)) =
      xs.countP q := by
  conv_rhs => rw [← map_getD_range xs default]
  rw [List.countP_map]
  rfl

/-- The test-property stream `[1.0, NaN, NaN, -0.0, 0.0, 1.0]`. -/
def ex6 : List CVal :=
  [⟨.num 1, .pzero⟩, ⟨.nan, .pzero⟩, ⟨.nan, .pzero⟩, ⟨.nzero, .pzero⟩,
   ⟨.pzero, .pzero⟩, ⟨.num 1, .pzero⟩]

/-- Claim C1: in `unique_all` (and the other `unique_*` projections, which
project the same result) every NaN-bearing occurrence forms a singleton
group with count 1, distinct from every other NaN-bearing occurrence; all
signed-zero elements are merged into one group whose count is the number
of all signed-zero occurrences; and on `[1.0, NaN, NaN, -0.0, 0.0, 1.0]`
the result has two distinct NaN groups of count 1, one `{-0.0, 0.0}` group
of count 2, one `1.0` group of count 2, `sum(counts) = 6` and
`inverse_indices` of length 6. -/
theorem C1_unique_nan_signed_zero (xs : List CVal) :
    (∀ i, i < xs.length → (xs.getD i default).isNaN = true →
      (unique_all xs).counts.getD ((unique_all xs).inverse_indices.getD i 0) 0
        = 1) ∧
    (∀ i j, i < xs.length → j < xs.length →
      (xs.getD i default).isNaN = true → (xs.getD j default).isNaN = true →
      i ≠ j →
      (unique_all xs).inverse_indices.getD i 0 ≠
        (unique_all xs).inverse_indices.getD j 0) ∧
    (∀ i j, i < xs.length → j < xs.length →
      CVal.isZero (xs.getD i default) = true →
      CVal.isZero (xs.getD j default) = true →
      (unique_all xs).inverse_indices.getD i 0 =
        (unique_all xs).inverse_indices.getD j 0) ∧
    (∀ i, i < xs.length → CVal.isZero (xs.getD i default) = true →
      (unique_all xs).counts.getD ((unique_all xs).inverse_indices.getD i 0) 0
        = xs.countP CVal.isZero) ∧
    (unique_counts xs = ((unique_all xs).values, (unique_all xs).counts) ∧
      unique_inverse xs =
        ((unique_all xs).values, (unique_all xs).inverse_indices) ∧
      unique_values xs = (unique_all xs).values) ∧
    (unique_all ex6 =
      ⟨[⟨.num 1, .pzero⟩, ⟨.nan, .pzero⟩, ⟨.nan, .pzero⟩, ⟨.nzero, .pzero⟩],
        [0, 1, 2, 3], [0, 1, 2, 3, 3, 0], [2, 1, 1, 2]⟩ ∧
      (unique_all ex6).counts.sum = 6 ∧
      (unique_all ex6).inverse_indices.length = 6) := by
  refine ⟨?_, ?_, ?_, ?_, ⟨rfl, rfl, rfl⟩, by decide⟩
  · intro i hi hn
    rw [inverse_getD hi, groupKey_nan hn]
    have hmem : i ∈ leaders xs := by
      have := groupKey_mem_leaders hi
      rwa [groupKey_nan hn] at this
    rw [counts_getD hmem]
    have hcongr : ∀ j ∈ List.range xs.length,
        ((groupKey xs j == i) = true ↔ (j == i) = true) := by
      intro j hj
      simp only [beq_iff_eq]
      exact nan_fiber hi hn j (List.mem_range.mp hj)
    rw [List.countP_congr hcongr, ← List.count_eq_countP]
    exact List.count_eq_one_of_mem (List.nodup_range _) (List.mem_range.mpr hi)
  · intro i j hi hj hni hnj hne
    rw [inverse_getD hi, inverse_getD hj, groupKey_nan hni, groupKey_nan hnj]
    have hmi : i ∈ leaders xs := by
      have := groupKey_mem_leaders hi
      rwa [groupKey_nan hni] at this
    have hmj : j ∈ leaders xs := by
      have := groupKey_mem_leaders hj
      rwa [groupKey_nan hnj] at this
    intro heq
    exact hne ((List.indexOf_inj hmi hmj).mp heq)
  · intro i j hi hj hzi hzj
    rw [inverse_getD hi, inverse_getD hj, zero_groupKey_eq hi hj hzi hzj]
  · intro i hi hzi
    rw [inverse_getD hi]
    have hmem := groupKey_mem_leaders hi
    rw [counts_getD hmem]
    have hcongr : ∀ j ∈ List.range xs.length,
        ((groupKey xs j == groupKey xs i) = true ↔
          CVal.isZero (xs.getD j default) = true) := by
      intro j hj
      simp only [beq_iff_eq]
      exact zero_fiber hi hzi j (List.mem_range.mp hj)
    rw [List.countP_congr hcongr]
    exact countP_getD_range xs CVal.isZero

theorem C1_unique_nan_signed_zero_witness :
    (unique_all ex6).counts.getD ((unique_all ex6).inverse_indices.getD 1 0) 0
      = 1 ∧
    (unique_all ex6).inverse_indices.getD 3 0 =
      (unique_all ex6).inverse_indices.getD 4 0 ∧
    (unique_all ex6).counts.getD ((unique_all ex6).inverse_indices.getD 3 0) 0
      = ex6.countP CVal.isZero := by
  have h := C1_unique_nan_signed_zero ex6
  exact ⟨h.1 1 (by decide) (by decide),
    h.2.2.1 3 4 (by decide) (by decide) (by decide) (by decide),
    h.2.2.2.1 3 (by decide) (by decide)⟩

/-- Claim C3: the four `UniqueResult` sequences satisfy
`len(indices) = len(counts) = len(values)`,
`sum(counts) = len(inverse_indices) = size(input)`, and for inputs free of
NaN and of signed-zero ambiguity gathering `values` by `inverse_indices`
reproduces the flattened input exactly. -/
theorem C3_unique_result_invariants (xs : List CVal) :
    (unique_all xs).indices.length = (unique_all xs).values.length ∧
    (unique_all xs).counts.length = (unique_all xs).values.length ∧
    (unique_all xs).counts.sum = xs.length ∧
    (unique_all xs).inverse_indices.length = xs.length ∧
    ((∀ v ∈ xs, v.isNaN = false) →
      (∀ v ∈ xs, ∀ w ∈ xs, CVal.valEq v w = true → v = w) →
      ∀ i, i < xs.length →
        (unique_all xs).values.getD ((unique_all xs).inverse_indices.getD i 0)
          default = xs.getD i default) := by
  refine ⟨by simp [unique_all], by simp [unique_all], ?_,
    by simp [unique_all], ?_⟩
  · have hsum := sum_countP_fibers (List.range xs.length) (leaders xs)
      (groupKey xs) (leaders_nodup xs)
      (fun i hi => groupKey_mem_leaders (List.mem_range.mp hi))
    rw [show (unique_all xs).counts = (leaders xs).map (fun p =>
      (List.range xs.length).countP (fun i => groupKey xs i == p)) from rfl]
    rw [hsum, List.length_range]
  · intro hN hA i hi
    rw [inverse_getD hi]
    have hmem := groupKey_mem_leaders hi
    rw [values_getD hmem]
    have hglt := groupKey_lt hi
    cases hn : (xs.getD i default).isNaN with
    | true => rw [groupKey_nan hn]
    | false =>
        have hveq := valEq_groupKey hi hn
        exact hA _ (getD_mem xs default hglt) _ (getD_mem xs default hi) hveq

/-- An ambiguity-free sample stream for the round-trip law. -/
def ex3 : List CVal := [⟨.num 2, .pzero⟩, ⟨.num 3, .pzero⟩, ⟨.num 2, .pzero⟩]

theorem C3_unique_result_invariants_witness :
    (unique_all ex3).counts.sum = 3 ∧
    (unique_all ex3).values.getD ((unique_all ex3).inverse_indices.getD 2 0)
      default = ⟨.num 2, .pzero⟩ := by
  have h := C3_unique_result_invariants ex3
  refine ⟨h.2.2.1, ?_⟩
  have h5 := h.2.2.2.2 (by decide) (by decide) 2 (by decide)
  exact h5.trans (by decide)

/-! ## OrderingEngine (§4.5, sorting_functions docstrings) -/

/-- Key order on positions of the element stream `l`: values compare
ascending (descending when `desc`), and ties are broken by original
position — the order a stable sort realizes. -/
def keyLE (l : List ℚ) (desc : Bool) (i j : Nat) : Prop :=
  match desc with
  | false => l.getD i 0 < l.getD j 0 ∨ (l.getD i 0 = l.getD j 0 ∧ i ≤ j)
  | true => l.getD j 0 < l.getD i 0 ∨ (l.getD i 0 = l.getD j 0 ∧ i ≤ j)

instance keyLE.decRel (l : List ℚ) (desc : Bool) :
    DecidableRel (keyLE l desc) := fun i j => by
  unfold keyLE
  cases desc
  · exact inferInstance
  · exact inferInstance

instance keyLE.total (l : List ℚ) (desc : Bool) :
    IsTotal Nat (keyLE l desc) := by
  constructor
  intro i j
  cases desc
  · rcases lt_trichotomy (l.getD i 0) (l.getD j 0) with h | h | h
    · exact Or.inl (Or.inl h)
    · rcases Nat.le_total i j with hij | hij
      · exact Or.inl (Or.inr ⟨h, hij⟩)
      · exact Or.inr (Or.inr ⟨h.symm, hij⟩)
    · exact Or.inr (Or.inl h)
  · rcases lt_trichotomy (l.getD i 0) (l.getD j 0) with h | h | h
    · exact Or.inr (Or.inl h)
    · rcases Nat.le_total i j with hij | hij
      · exact Or.inl (Or.inr ⟨h, hij⟩)
      · exact Or.inr (Or.inr ⟨h.symm, hij⟩)
    · exact Or.inl (Or.inl h)

instance keyLE.trans (l : List ℚ) (desc : Bool) :
    IsTrans Nat (keyLE l desc) := by
  constructor
  intro i j k hij hjk
  cases desc
  · rcases hij with h1 | ⟨h1, hle1⟩ <;> rcases hjk with h2 | ⟨h2, hle2⟩
    · exact Or.inl (h1.trans h2)
    · exact Or.inl (h2 ▸ h1)
    · exact Or.inl (h1 ▸ h2)
    · exact Or.inr ⟨h1.trans h2, hle1.trans hle2⟩
  · rcases hij with h1 | ⟨h1, hle1⟩ <;> rcases hjk with h2 | ⟨h2, hle2⟩
    · exact Or.inl (h2.trans h1)
    · exact Or.inl (h2 ▸ h1)
    · exact Or.inl (h1.symm ▸ h2)
    · exact Or.inr ⟨h1.trans h2, hle1.trans hle2⟩

/-- Modelled from the spec: `argsort(x, descending, stable = true)` on a
one-dimensional element stream (the §3 element stream that sorting
processes along one axis) — the permutation of positions that orders the
stream by value, equal values keeping their original relative order. -/
def argsort (l : List ℚ) (desc : Bool) : List Nat :=
  List.insertionSort (keyLE l desc) (List.range l.length)

/-- Modelled from the spec: `sort(x, descending, stable = true)` — the
element stream gathered through the `argsort` permutation. -/
def sort (l : List ℚ) (desc : Bool) : List ℚ :=
  (argsort l desc).map (fun i => l.getD i 0)

/-- Claim C9: stable `sort` permutes the stream into ascending order
(descending when `descending = true`), elements comparing equal keep
their original relative order (the returned positions of equal values
increase), and `argsort` returns a permutation of the positions that
gathers the original stream to exactly `sort`'s output. -/
theorem C9_sort_stable_argsort (l : List ℚ) (desc : Bool) :
    List.Perm (sort l desc) l ∧
    List.Perm (argsort l desc) (List.range l.length) ∧
    (desc = false → List.Sorted (· ≤ ·) (sort l false)) ∧
    (desc = true → List.Sorted (· ≥ ·) (sort l true)) ∧
    List.Pairwise (fun i j => l.getD i 0 = l.getD j 0 → i < j)
      (argsort l desc) ∧
    sort l desc = (argsort l desc).map (fun i => l.getD i 0) := by
  have hperm : List.Perm (argsort l desc) (List.range l.length) :=
    List.perm_insertionSort _ _
  have hsorted : List.Sorted (keyLE l desc) (argsort l desc) :=
    List.sorted_insertionSort _ _
  have hnodup : (argsort l desc).Nodup :=
    (hperm.nodup_iff).mpr (List.nodup_range _)
  refine ⟨?_, hperm, ?_, ?_, ?_, rfl⟩
  · have hmap := hperm.map (fun i => l.getD i 0)
    rw [map_getD_range l 0] at hmap
    exact hmap
  · intro hd
    subst hd
    apply List.Pairwise.map (fun i => l.getD i 0) ?_ hsorted
    intro a b hab
    rcases hab with h | ⟨h, _⟩
    · exact le_of_lt h
    · exact le_of_eq h
  · intro hd
    subst hd
    apply List.Pairwise.map (fun i => l.getD i 0) ?_ hsorted
    intro a b hab
    rcases hab with h | ⟨h, _⟩
    · exact le_of_lt h
    · exact le_of_eq h.symm
  · have hand := hsorted.and hnodup
    apply List.Pairwise.imp ?_ hand
    intro a b hab heq
    obtain ⟨hk, hne⟩ := hab
    cases desc with
    | false =>
        rcases hk with hv | ⟨_, hle⟩
        · rw [heq] at hv; exact absurd hv (lt_irrefl _)
        · exact Nat.lt_of_le_of_ne hle hne
    | true =>
        rcases hk with hv | ⟨_, hle⟩
        · rw [heq] at hv; exact absurd hv (lt_irrefl _)
        · exact Nat.lt_of_le_of_ne hle hne

theorem C9_sort_stable_argsort_witness :
    sort [5, 3, 5] false = [3, 5, 5] ∧
    argsort [5, 3, 5] false = [1, 0, 2] ∧
    List.Sorted (· ≤ ·) (sort [5, 3, 5] false) :=
  ⟨by decide, by decide, (C9_sort_stable_argsort [5, 3, 5] false).2.2.1 rfl⟩

/-! ## arange (`creation_functions` docstring) -/

/-- Generation loop of `arange`: emit the current value while it still
lies strictly before `stop` in the direction of `step`; the fuel argument
only bounds the recursion and never cuts generation short. -/
def arangeAux : Nat → ℚ → ℚ → ℚ → List ℚ
  | 0, _, _, _ => []
  | fuel + 1, x, stop, step =>
      if (0 < step ∧ x < stop) ∨ (step < 0 ∧ stop < x) then
        x :: arangeAux fuel (x + step) stop step
      else []

/-- Modelled from the spec: `arange(start, stop, step)` (the
creation_functions docstring) — evenly spaced values over the half-open
interval `[start, stop)` with spacing `step`. -/
def arange (start stop step : ℚ) : List ℚ :=
  arangeAux ((⌈(stop - start) / step⌉).toNat + 1) start stop step

theorem arangeAux_length : ∀ (fuel : Nat) (x stop step : ℚ), step ≠ 0 →
    (⌈(stop - x) / step⌉).toNat ≤ fuel →
    (arangeAux fuel x stop step).length = (⌈(stop - x) / step⌉).toNat
  | 0, x, stop, step, hs, hf => by
      simp only [arangeAux, List.length_nil]
      omega
  | fuel + 1, x, stop, step, hs, hf => by
      by_cases hg : (0 < step ∧ x < stop) ∨ (step < 0 ∧ stop < x)
      · have hqpos : 0 < (stop - x) / step := by
          rcases hg with ⟨h1, h2⟩ | ⟨h1, h2⟩
          · exact div_pos (by linarith) h1
          · exact div_pos_of_neg_of_neg (by linarith) h1
        have hcpos : 0 < ⌈(stop - x) / step⌉ := Int.ceil_pos.mpr hqpos
        have hnext : (stop - (x + step)) / step =
            (stop - x) / step - 1 := by
          field_simp
          ring
        simp only [arangeAux]
        rw [if_pos hg, List.length_cons]
        rw [arangeAux_length fuel (x + step) stop step hs
          (by rw [hnext, Int.ceil_sub_one]; omega)]
        rw [hnext, Int.ceil_sub_one]
        omega
      · simp only [arangeAux]
        rw [if_neg hg, List.length_nil]
        have hq : (stop - x) / step ≤ 0 := by
          push_neg at hg
          rcases lt_trichotomy step 0 with h1 | h1 | h1
          · have hx := hg.2 h1
            exact div_nonpos_iff.mpr (Or.inl ⟨by linarith, le_of_lt h1⟩)
          · exact absurd h1 hs
          · have hx := hg.1 h1
            exact div_nonpos_iff.mpr (Or.inr ⟨by linarith, le_of_lt h1⟩)
        have hle : ⌈(stop - x) / step⌉ ≤ 0 := by
          rw [Int.ceil_le]
          exact_mod_cast hq
        omega

/-- Claim C10: with a nonzero step, `arange(start, stop, step)` has length
`ceil((stop - start) / step)` when `stop - start` and `step` have the same
sign and length 0 otherwise; in particular a negative step with
`stop ≥ start` yields an empty array. -/
theorem C10_arange_length (start stop step : ℚ) (hs : step ≠ 0) :
    ((arange start stop step).length =
      if (0 < stop - start ∧ 0 < step) ∨ (stop - start < 0 ∧ step < 0)
        then (⌈(stop - start) / step⌉).toNat else 0) ∧
    (step < 0 → start ≤ stop → arange start stop step = []) := by
  constructor
  · have hlen := arangeAux_length ((⌈(stop - start) / step⌉).toNat + 1)
      start stop step hs (by omega)
    rw [show arange start stop step =
      arangeAux ((⌈(stop - start) / step⌉).toNat + 1) start stop step from rfl]
    rw [hlen]
    by_cases hc : (0 < stop - start ∧ 0 < step) ∨ (stop - start < 0 ∧ step < 0)
    · rw [if_pos hc]
    · rw [if_neg hc]
      have hq : (stop - start) / step ≤ 0 := by
        push_neg at hc
        rcases lt_trichotomy step 0 with h1 | h1 | h1
        · have hd : 0 ≤ stop - start := by
            by_contra hdneg
            push_neg at hdneg
            exact absurd (hc.2 (by linarith)) (by linarith)
          exact div_nonpos_iff.mpr (Or.inl ⟨hd, le_of_lt h1⟩)
        · exact absurd h1 hs
        · have hd : stop - start ≤ 0 := by
            by_contra hdneg
            push_neg at hdneg
            exact absurd (hc.1 hdneg) (by linarith)
          exact div_nonpos_iff.mpr (Or.inr ⟨hd, le_of_lt h1⟩)
      have hle : ⌈(stop - start) / step⌉ ≤ 0 := by
        rw [Int.ceil_le]
        exact_mod_cast hq
      omega
  · intro h1 h2
    rw [show arange start stop step =
      arangeAux ((⌈(stop - start) / step⌉).toNat + 1) start stop step from rfl]
    simp only [arangeAux]
    rw [if_neg ?_]
    rintro (⟨hp, _⟩ | ⟨_, hlt⟩)
    · linarith
    · linarith

theorem C10_arange_length_witness :
    (arange 0 10 3).length = 4 ∧ arange 5 10 (-1) = [] := by
  constructor
  · rw [(C10_arange_length 0 10 3 (by norm_num)).1, if_pos (by norm_num)]
    have hc : ⌈((10 : ℚ) - 0) / 3⌉ = 4 := by
      rw [Int.ceil_eq_iff]
      constructor
      · norm_num
      · norm_num
    rw [hc]
    rfl
  · exact (C10_arange_length 5 10 (-1) (by norm_num)).2 (by norm_num)
      (by norm_num)
